import Mathlib

/-!
# Verification of the VossTagViewControl tag editor

Shallow embedding of `src/VossTagViewControl/index.ts`.  JavaScript strings
are modelled as lists of UTF-16 code units (`List Nat`); the case maps of
`String.prototype.toLowerCase` / `toUpperCase` are modelled on the ASCII
range, and `String.prototype.trim` by a whitespace predicate covering the
common JS whitespace code points.  JavaScript 32-bit signed integer
wrapping (`|0`, `<<`) is modelled on `Int` with explicit reduction
modulo `2 ^ 32`.
-/

namespace VossTag

/-- A JavaScript string: its list of UTF-16 code units. -/
abbrev Str := List Nat

/-- Code units treated as whitespace by `String.prototype.trim`
(tab, LF, VT, FF, CR, space, NBSP, LS, PS, BOM). -/
def isSpace (c : Nat) : Bool :=
  decide ((9 ≤ c ∧ c ≤ 13) ∨ c = 32 ∨ c = 160 ∨ c = 8232 ∨ c = 8233 ∨ c = 65279)

/-- ASCII model of the `toLowerCase` case map on one code unit. -/
def toLowerC (c : Nat) : Nat :=
  if 65 ≤ c ∧ c ≤ 90 then c + 32 else c

/-- ASCII model of the `toUpperCase` case map on one code unit. -/
def toUpperC (c : Nat) : Nat :=
  if 97 ≤ c ∧ c ≤ 122 then c - 32 else c

/-- `s.toLowerCase()`. -/
def lowerStr (t : Str) : Str := t.map toLowerC

/-- Strip leading whitespace (one side of `trim`). -/
def trimLeft (l : Str) : Str := l.dropWhile isSpace

/-- `s.trim()`: strip whitespace from both ends. -/
def trim (l : Str) : Str := ((trimLeft l).reverse.dropWhile isSpace).reverse

/-- `s.charAt(0).toUpperCase() + s.slice(1)`. -/
def upperFirst : Str → Str
  | [] => []
  | c :: cs => toUpperC c :: cs

/-- `raw.split(",")` for the single-character separator `,` (code 44). -/
def splitComma : Str → List Str
  | [] => [[]]
  | c :: cs =>
    if c = 44 then [] :: splitComma cs
    else
      match splitComma cs with
      | [] => [[c]]
      | p :: ps => (c :: p) :: ps

/-- `tags.join(",")`. -/
def joinComma : List Str → Str
  | [] => []
  | [t] => t
  | t :: t2 :: ts => t ++ 44 :: joinComma (t2 :: ts)

/-- `normalizeTagText` (index.ts 122–127): trim, reject empty, lower-case
the whole string, then upper-case the first code unit. -/
def normalizeTagText (input : Str) : Option Str :=
  if trim input = [] then none
  else some (upperFirst (lowerStr (trim input)))

/-- The per-part loop of `parseTags` (index.ts 71–82): normalize, drop
over-long tags, deduplicate through the `seen` set of lower-cased tags. -/
def parseLoop (maxLength : Int) : List Str → List Str → List Str
  | [], _ => []
  | p :: ps, seen =>
    match normalizeTagText p with
    | none => parseLoop maxLength ps seen
    | some tag =>
      if (tag.length : Int) > maxLength then parseLoop maxLength ps seen
      else if lowerStr tag ∈ seen then parseLoop maxLength ps seen
      else tag :: parseLoop maxLength ps (lowerStr tag :: seen)

/-- `parseTags` (index.ts 59–85): split on commas, trim, drop empties,
then run the normalize/filter/dedup loop. -/
def parseTags (raw : Str) (maxLength : Int) : List Str :=
  parseLoop maxLength
    (((splitComma raw).map trim).filter (fun t => 0 < t.length)) []

/-- A raw numeric configuration value as the control receives it:
absent (`null`/`undefined`), not a number (`NaN`), or a numeric value. -/
inductive RawNum where
  | missing
  | nan
  | val (n : Int)
deriving DecidableEq

/-- `getMaxTagLength` (index.ts 87–91): default 20 when absent, `NaN`
or non-positive. -/
def getMaxTagLength : RawNum → Int
  | .missing => 20
  | .nan => 20
  | .val n => if n ≤ 0 then 20 else n

/-- `getMaxTagsToShow` (index.ts 93–97): default 10 when absent, `NaN`
or non-positive. -/
def getMaxTagsToShow : RawNum → Int
  | .missing => 10
  | .nan => 10
  | .val n => if n ≤ 0 then 10 else n

/-- Code-unit list of a Lean string literal (ASCII literals only are used). -/
def strCodes (s : String) : Str := s.toList.map Char.toNat

/-! ## Code-unit lemmas -/

theorem toLowerC_toLowerC (c : Nat) : toLowerC (toLowerC c) = toLowerC c := by
  unfold toLowerC; split_ifs <;> omega

theorem toLowerC_toUpperC_toLowerC (c : Nat) :
    toLowerC (toUpperC (toLowerC c)) = toLowerC c := by
  unfold toLowerC toUpperC; split_ifs <;> omega

theorem toUpperC_toLowerC_fix (c : Nat) :
    toUpperC (toLowerC (toUpperC (toLowerC c))) = toUpperC (toLowerC c) := by
  rw [toLowerC_toUpperC_toLowerC]

theorem isSpace_toLowerC (c : Nat) : isSpace (toLowerC c) = isSpace c := by
  unfold isSpace toLowerC
  split_ifs with h
  · exact decide_eq_decide.mpr (by omega)
  · rfl

theorem isSpace_toUpperC (c : Nat) : isSpace (toUpperC c) = isSpace c := by
  unfold isSpace toUpperC
  split_ifs with h
  · exact decide_eq_decide.mpr (by omega)
  · rfl

theorem toLowerC_ne_44 {c : Nat} (h : c ≠ 44) : toLowerC c ≠ 44 := by
  unfold toLowerC; split_ifs <;> omega

theorem toUpperC_ne_44 {c : Nat} (h : c ≠ 44) : toUpperC c ≠ 44 := by
  unfold toUpperC; split_ifs <;> omega

/-! ## Trim lemmas -/

theorem dropWhile_eq_self_of_head {p : Nat → Bool} {l : Str}
    (h : ∀ c, l.head? = some c → p c = false) : l.dropWhile p = l := by
  cases l with
  | nil => rfl
  | cons c cs => simp [List.dropWhile_cons, h c rfl]

theorem head?_dropWhile {p : Nat → Bool} {l : Str} {h : Nat}
    (hh : (l.dropWhile p).head? = some h) : p h = false := by
  induction l with
  | nil => simp [List.dropWhile] at hh
  | cons c cs ih =>
    rw [List.dropWhile_cons] at hh
    by_cases hc : p c
    · rw [if_pos hc] at hh; exact ih hh
    · rw [if_neg hc] at hh
      simp only [List.head?_cons, Option.some.injEq] at hh
      subst hh
      exact Bool.eq_false_iff.mpr hc

theorem getLast?_dropWhile {p : Nat → Bool} {l : Str}
    (hne : l.dropWhile p ≠ []) : (l.dropWhile p).getLast? = l.getLast? := by
  induction l with
  | nil => simp [List.dropWhile] at hne
  | cons c cs ih =>
    rw [List.dropWhile_cons]
    rw [List.dropWhile_cons] at hne
    by_cases hc : p c
    · rw [if_pos hc] at hne ⊢
      have hcs : cs ≠ [] := by
        intro h0
        rw [h0] at hne
        simp [List.dropWhile] at hne
      cases cs with
      | nil => exact absurd rfl hcs
      | cons d ds => rw [ih hne, List.getLast?_cons_cons]
    · rw [if_neg hc]

theorem trim_sublist (l : Str) : List.Sublist (trim l) l := by
  have h2 : List.Sublist ((trimLeft l).reverse.dropWhile isSpace).reverse
      (trimLeft l).reverse.reverse := (List.dropWhile_sublist _).reverse
  rw [List.reverse_reverse] at h2
  exact h2.trans (List.dropWhile_sublist _)

theorem mem_of_mem_trim {c : Nat} {l : Str} (h : c ∈ trim l) : c ∈ l :=
  (trim_sublist l).subset h

theorem isSpace_head_trim {l : Str} {h : Nat}
    (hh : (trim l).head? = some h) : isSpace h = false := by
  unfold trim at hh
  rw [List.head?_reverse] at hh
  have hne : (trimLeft l).reverse.dropWhile isSpace ≠ [] := by
    intro h0; rw [h0] at hh; simp at hh
  rw [getLast?_dropWhile hne, List.getLast?_reverse] at hh
  exact head?_dropWhile hh

theorem isSpace_getLast_trim {l : Str} {h : Nat}
    (hh : (trim l).getLast? = some h) : isSpace h = false := by
  unfold trim at hh
  rw [List.getLast?_reverse] at hh
  exact head?_dropWhile hh

theorem trim_eq_self {l : Str}
    (hh : ∀ c, l.head? = some c → isSpace c = false)
    (hl : ∀ c, l.getLast? = some c → isSpace c = false) : trim l = l := by
  unfold trim trimLeft
  rw [dropWhile_eq_self_of_head hh,
    dropWhile_eq_self_of_head (fun c hc => hl c (by rwa [List.head?_reverse] at hc)),
    List.reverse_reverse]

theorem trim_trim (l : Str) : trim (trim l) = trim l :=
  trim_eq_self (fun _ hc => isSpace_head_trim hc) (fun _ hc => isSpace_getLast_trim hc)

/-! ## Normalization lemmas -/

theorem lowerStr_lowerStr (t : Str) : lowerStr (lowerStr t) = lowerStr t := by
  unfold lowerStr
  rw [List.map_map]
  exact List.map_congr_left (fun a _ => toLowerC_toLowerC a)

theorem lowerStr_upperFirst_lowerStr (t : Str) :
    lowerStr (upperFirst (lowerStr t)) = lowerStr t := by
  cases t with
  | nil => rfl
  | cons c cs =>
    show toLowerC (toUpperC (toLowerC c)) :: lowerStr (lowerStr cs)
        = toLowerC c :: lowerStr cs
    rw [toLowerC_toUpperC_toLowerC, lowerStr_lowerStr]

theorem normalizeTagText_eq_some {s t : Str} (h : normalizeTagText s = some t) :
    trim s ≠ [] ∧ t = upperFirst (lowerStr (trim s)) := by
  unfold normalizeTagText at h
  split_ifs at h with h0
  exact ⟨h0, (Option.some.inj h).symm⟩

theorem normalizeTagText_ne_nil {s t : Str} (h : normalizeTagText s = some t) :
    t ≠ [] := by
  obtain ⟨h0, rfl⟩ := normalizeTagText_eq_some h
  cases hu : trim s with
  | nil => exact absurd hu h0
  | cons c cs => simp [lowerStr, upperFirst]

theorem normalizeTagText_no_comma {s t : Str} (h : normalizeTagText s = some t)
    (hs : 44 ∉ s) : 44 ∉ t := by
  obtain ⟨h0, rfl⟩ := normalizeTagText_eq_some h
  intro hmem
  cases hu : trim s with
  | nil => exact absurd hu h0
  | cons d ds =>
    rw [hu] at hmem
    have hmem2 : 44 = toUpperC (toLowerC d) ∨ 44 ∈ List.map toLowerC ds := by
      simpa [lowerStr, upperFirst] using hmem
    have hd : d ∈ s := mem_of_mem_trim (hu ▸ List.mem_cons_self d ds)
    rcases hmem2 with h1 | h1
    · exact toUpperC_ne_44 (toLowerC_ne_44 (fun hc => hs (hc ▸ hd))) h1.symm
    · obtain ⟨e, he, hec⟩ := List.mem_map.mp h1
      have hes : e ∈ s := mem_of_mem_trim (hu ▸ List.mem_cons_of_mem d he)
      exact toLowerC_ne_44 (fun hc => hs (hc ▸ hes)) hec

theorem trim_normalize {s t : Str} (h : normalizeTagText s = some t) :
    trim t = t := by
  obtain ⟨h0, rfl⟩ := normalizeTagText_eq_some h
  cases hu : trim s with
  | nil => exact absurd hu h0
  | cons d ds =>
    have hdh : isSpace d = false := isSpace_head_trim (by rw [hu]; rfl)
    apply trim_eq_self
    · intro c hc
      have hc2 : c = toUpperC (toLowerC d) := by
        have : (upperFirst (lowerStr (d :: ds))).head? = some (toUpperC (toLowerC d)) := rfl
        rw [this] at hc
        exact (Option.some.inj hc).symm
      rw [hc2, isSpace_toUpperC, isSpace_toLowerC]
      exact hdh
    · intro c hc
      cases ds with
      | nil =>
        have hc2 : c = toUpperC (toLowerC d) := by
          have : (upperFirst (lowerStr [d])).getLast? = some (toUpperC (toLowerC d)) := rfl
          rw [this] at hc
          exact (Option.some.inj hc).symm
        rw [hc2, isSpace_toUpperC, isSpace_toLowerC]
        exact hdh
      | cons e es =>
        have hstep : (upperFirst (lowerStr (d :: e :: es))).getLast?
            = (List.map toLowerC (e :: es)).getLast? := by
          show (toUpperC (toLowerC d) :: toLowerC e :: List.map toLowerC es).getLast?
              = (toLowerC e :: List.map toLowerC es).getLast?
          exact List.getLast?_cons_cons
        rw [hstep, List.getLast?_map] at hc
        cases hg : (e :: es).getLast? with
        | none => rw [hg] at hc; exact absurd hc (by simp)
        | some g =>
          rw [hg] at hc
          have hcg : c = toLowerC g := (Option.some.inj hc).symm
          have hgs : isSpace g = false := by
            apply isSpace_getLast_trim (l := s)
            rw [hu, List.getLast?_cons_cons, hg]
          rw [hcg, isSpace_toLowerC]
          exact hgs

theorem normalizeTagText_idem {s t : Str} (h : normalizeTagText s = some t) :
    normalizeTagText t = some t := by
  have htr : trim t = t := trim_normalize h
  have hne : t ≠ [] := normalizeTagText_ne_nil h
  obtain ⟨h0, ht⟩ := normalizeTagText_eq_some h
  unfold normalizeTagText
  rw [htr, if_neg hne]
  subst ht
  rw [lowerStr_upperFirst_lowerStr]

/-! ## Split / join lemmas -/

theorem splitComma_ne_nil (l : Str) : splitComma l ≠ [] := by
  induction l with
  | nil => simp [splitComma]
  | cons c cs ih =>
    unfold splitComma
    split_ifs
    · simp
    · cases h : splitComma cs <;> simp

theorem not_mem_of_mem_splitComma {l p : Str} (hp : p ∈ splitComma l) : 44 ∉ p := by
  induction l generalizing p with
  | nil =>
    simp only [splitComma, List.mem_singleton] at hp
    subst hp; simp
  | cons c cs ih =>
    unfold splitComma at hp
    by_cases hc : c = 44
    · rw [if_pos hc] at hp
      rcases List.mem_cons.mp hp with h1 | h1
      · subst h1; simp
      · exact ih h1
    · rw [if_neg hc] at hp
      cases h : splitComma cs with
      | nil => exact absurd h (splitComma_ne_nil cs)
      | cons q qs =>
        rw [h] at hp
        rcases List.mem_cons.mp hp with h1 | h1
        · subst h1
          intro hmem
          rcases List.mem_cons.mp hmem with h2 | h2
          · exact hc h2.symm
          · exact ih (by rw [h]; exact List.mem_cons_self q qs) h2
        · exact ih (by rw [h]; exact List.mem_cons_of_mem q h1)

theorem splitComma_no_comma {l : Str} (h : 44 ∉ l) : splitComma l = [l] := by
  induction l with
  | nil => rfl
  | cons c cs ih =>
    have hc : c ≠ 44 := fun h0 => h (by rw [← h0]; exact List.mem_cons_self c cs)
    have hcs : 44 ∉ cs := fun h0 => h (List.mem_cons_of_mem c h0)
    unfold splitComma
    rw [if_neg hc, ih hcs]

theorem splitComma_append_comma {l rest : Str} (h : 44 ∉ l) :
    splitComma (l ++ 44 :: rest) = l :: splitComma rest := by
  induction l with
  | nil =>
    show splitComma (44 :: rest) = [] :: splitComma rest
    simp [splitComma]
  | cons c cs ih =>
    have hc : c ≠ 44 := fun h0 => h (by rw [← h0]; exact List.mem_cons_self c _)
    have hcs : 44 ∉ cs := fun h0 => h (List.mem_cons_of_mem c h0)
    show splitComma (c :: (cs ++ 44 :: rest)) = (c :: cs) :: splitComma rest
    simp only [splitComma]
    rw [if_neg hc, ih hcs]

theorem splitComma_joinComma {ts : List Str} (hts : ts ≠ [])
    (h : ∀ t ∈ ts, 44 ∉ t) : splitComma (joinComma ts) = ts := by
  induction ts with
  | nil => exact absurd rfl hts
  | cons t ts2 ih =>
    cases ts2 with
    | nil => exact splitComma_no_comma (h t (List.mem_cons_self t []))
    | cons t2 ts3 =>
      show splitComma (t ++ 44 :: joinComma (t2 :: ts3)) = t :: t2 :: ts3
      rw [splitComma_append_comma (h t (List.mem_cons_self t _))]
      congr 1
      exact ih (by simp) (fun u hu => h u (List.mem_cons_of_mem t hu))

/-! ## Parse loop lemmas -/

theorem mem_parseLoop {L : Int} {parts seen : List Str} {t : Str}
    (ht : t ∈ parseLoop L parts seen) :
    (∃ p ∈ parts, normalizeTagText p = some t) ∧
      ¬((t.length : Int) > L) ∧ lowerStr t ∉ seen := by
  induction parts generalizing seen with
  | nil => simp [parseLoop] at ht
  | cons p ps ih =>
    unfold parseLoop at ht
    cases hn : normalizeTagText p with
    | none =>
      simp only [hn] at ht
      obtain ⟨⟨q, hq, hqn⟩, hl, hs⟩ := ih ht
      exact ⟨⟨q, List.mem_cons_of_mem p hq, hqn⟩, hl, hs⟩
    | some tag =>
      simp only [hn] at ht
      by_cases hlen : (tag.length : Int) > L
      · rw [if_pos hlen] at ht
        obtain ⟨⟨q, hq, hqn⟩, hl, hs⟩ := ih ht
        exact ⟨⟨q, List.mem_cons_of_mem p hq, hqn⟩, hl, hs⟩
      · rw [if_neg hlen] at ht
        by_cases hseen : lowerStr tag ∈ seen
        · rw [if_pos hseen] at ht
          obtain ⟨⟨q, hq, hqn⟩, hl, hs⟩ := ih ht
          exact ⟨⟨q, List.mem_cons_of_mem p hq, hqn⟩, hl, hs⟩
        · rw [if_neg hseen] at ht
          rcases List.mem_cons.mp ht with h1 | h1
          · subst h1
            exact ⟨⟨p, List.mem_cons_self p ps, hn⟩, hlen, hseen⟩
          · obtain ⟨⟨q, hq, hqn⟩, hl, hs⟩ := ih h1
            exact ⟨⟨q, List.mem_cons_of_mem p hq, hqn⟩, hl,
              fun hmem => hs (List.mem_cons_of_mem _ hmem)⟩

theorem nodup_lower_parseLoop (L : Int) (parts : List Str) (seen : List Str) :
    ((parseLoop L parts seen).map lowerStr).Nodup := by
  induction parts generalizing seen with
  | nil => simp [parseLoop]
  | cons p ps ih =>
    unfold parseLoop
    cases hn : normalizeTagText p with
    | none => exact ih seen
    | some tag =>
      simp only [hn]
      by_cases hlen : (tag.length : Int) > L
      · rw [if_pos hlen]; exact ih seen
      · rw [if_neg hlen]
        by_cases hseen : lowerStr tag ∈ seen
        · rw [if_pos hseen]; exact ih seen
        · rw [if_neg hseen]
          rw [List.map_cons, List.nodup_cons]
          refine ⟨?_, ih _⟩
          intro hmem
          obtain ⟨u, hu, huq⟩ := List.mem_map.mp hmem
          have hs := (mem_parseLoop hu).2.2
          exact hs (huq ▸ List.mem_cons_self _ _)

theorem parseLoop_fixed {L : Int} : ∀ (tags seen : List Str),
    (∀ t ∈ tags, normalizeTagText t = some t ∧ ¬((t.length : Int) > L)) →
    (tags.map lowerStr).Nodup →
    (∀ t ∈ tags, lowerStr t ∉ seen) →
    parseLoop L tags seen = tags := by
  intro tags
  induction tags with
  | nil => intro seen _ _ _; rfl
  | cons t ts ih =>
    intro seen hinv hnd hseen
    obtain ⟨hn, hlen⟩ := hinv t (List.mem_cons_self t ts)
    unfold parseLoop
    simp only [hn]
    rw [if_neg hlen, if_neg (hseen t (List.mem_cons_self t ts))]
    congr 1
    rw [List.map_cons, List.nodup_cons] at hnd
    apply ih
    · exact fun u hu => hinv u (List.mem_cons_of_mem t hu)
    · exact hnd.2
    · intro u hu hmem
      rcases List.mem_cons.mp hmem with h1 | h1
      · exact hnd.1 (h1 ▸ List.mem_map_of_mem lowerStr hu)
      · exact hseen u (List.mem_cons_of_mem t hu) h1

/-! ## Parse invariants and the serialize round trip -/

theorem parseTags_mem_invariant {raw : Str} {L : Int} {t : Str}
    (ht : t ∈ parseTags raw L) :
    normalizeTagText t = some t ∧ 44 ∉ t ∧ ¬((t.length : Int) > L) := by
  obtain ⟨⟨p, hp, hpn⟩, hl, _⟩ := mem_parseLoop ht
  have hp2 : p ∈ (splitComma raw).map trim := (List.mem_filter.mp hp).1
  obtain ⟨q, hq, hqt⟩ := List.mem_map.mp hp2
  have hq44 : 44 ∉ q := not_mem_of_mem_splitComma hq
  have hp44 : 44 ∉ p := fun hm => hq44 (mem_of_mem_trim (by rw [hqt]; exact hm))
  exact ⟨normalizeTagText_idem hpn, normalizeTagText_no_comma hpn hp44, hl⟩

theorem nodup_lower_parseTags (raw : Str) (L : Int) :
    ((parseTags raw L).map lowerStr).Nodup := nodup_lower_parseLoop L _ []

/-- The TagList invariant of spec §3: every stored tag is a fixed point of
the normalizer, contains no comma, and respects the length bound; tags are
pairwise distinct under case-insensitive comparison. -/
def TagListInvariant (tags : List Str) (L : Int) : Prop :=
  (∀ t ∈ tags, normalizeTagText t = some t ∧ 44 ∉ t ∧ (t.length : Int) ≤ L) ∧
    (tags.map lowerStr).Nodup

instance (tags : List Str) (L : Int) : Decidable (TagListInvariant tags L) := by
  unfold TagListInvariant
  infer_instance

theorem parseTags_joinComma_fixed {tags : List Str} {L : Int}
    (hinv : ∀ t ∈ tags, normalizeTagText t = some t ∧ 44 ∉ t ∧ ¬((t.length : Int) > L))
    (hnd : (tags.map lowerStr).Nodup) :
    parseTags (joinComma tags) L = tags := by
  cases tags with
  | nil => rfl
  | cons t ts =>
    have hsplit : splitComma (joinComma (t :: ts)) = t :: ts :=
      splitComma_joinComma (by simp) (fun u hu => (hinv u hu).2.1)
    unfold parseTags
    rw [hsplit]
    have htrim : (t :: ts).map trim = t :: ts := by
      have h0 : ∀ u ∈ t :: ts, trim u = u := fun u hu => trim_normalize (hinv u hu).1
      calc (t :: ts).map trim = (t :: ts).map id := List.map_congr_left h0
        _ = t :: ts := List.map_id _
    rw [htrim]
    have hfilter : (t :: ts).filter (fun u => 0 < u.length) = t :: ts := by
      apply List.filter_eq_self.mpr
      intro a ha
      have hne : a ≠ [] := normalizeTagText_ne_nil (hinv a ha).1
      cases a with
      | nil => exact absurd rfl hne
      | cons c cs => simp
    rw [hfilter]
    exact parseLoop_fixed _ _ (fun u hu => ⟨(hinv u hu).1, (hinv u hu).2.2⟩) hnd
      (by simp)

/-! ## Spec-side parse pipeline (§4.1) -/

/-- Sentence case (spec §4.1 step 3): lower-case the whole string, then
upper-case the first character. -/
def sentenceCase (t : Str) : Str := upperFirst (lowerStr t)

/-- Spec-side deduplication (§4.1 step 5): keep the first occurrence of
each case-insensitive equivalence class, in its original position. -/
def dedupCI : List Str → List Str → List Str
  | [], _ => []
  | t :: ts, seen =>
    if lowerStr t ∈ seen then dedupCI ts seen
    else t :: dedupCI ts (lowerStr t :: seen)

/-- The parse contract written from the words of spec §4.1: split on
commas, trim, drop empty pieces, sentence-case, drop over-long tags,
deduplicate case-insensitively keeping first occurrences. -/
def parseSpec (raw : Str) (L : Int) : List Str :=
  dedupCI
    (((((splitComma raw).map trim).filter (fun t => !t.isEmpty)).map
        sentenceCase).filter (fun t => (t.length : Int) ≤ L)) []

theorem parseLoop_eq_dedupCI {L : Int} : ∀ (parts seen : List Str),
    (∀ p ∈ parts, trim p = p ∧ p ≠ []) →
    parseLoop L parts seen =
      dedupCI ((parts.map sentenceCase).filter (fun t => (t.length : Int) ≤ L)) seen := by
  intro parts
  induction parts with
  | nil => intro seen _; rfl
  | cons p ps ih =>
    intro seen hp
    obtain ⟨hpt, hpne⟩ := hp p (List.mem_cons_self p ps)
    have hps := fun u hu => hp u (List.mem_cons_of_mem p hu)
    have hn : normalizeTagText p = some (sentenceCase p) := by
      unfold normalizeTagText sentenceCase
      rw [hpt, if_neg hpne]
    unfold parseLoop
    simp only [hn, List.map_cons, List.filter_cons]
    by_cases hlen : ((sentenceCase p).length : Int) > L
    · rw [if_pos hlen, if_neg (by simp only [decide_eq_true_eq]; omega)]
      exact ih seen hps
    · rw [if_neg hlen,
        if_pos (show (decide (((sentenceCase p).length : Int) ≤ L)) = true from
          by simp only [decide_eq_true_eq]; omega)]
      simp only [dedupCI]
      by_cases hseen : lowerStr (sentenceCase p) ∈ seen
      · rw [if_pos hseen, if_pos hseen]
        exact ih seen hps
      · rw [if_neg hseen, if_neg hseen]
        congr 1
        exact ih _ hps

theorem parseTags_eq_parseSpec (raw : Str) (L : Int) :
    parseTags raw L = parseSpec raw L := by
  unfold parseTags parseSpec
  have hfe : ((splitComma raw).map trim).filter (fun t => 0 < t.length)
      = ((splitComma raw).map trim).filter (fun t => !t.isEmpty) := by
    apply List.filter_congr
    intro a _
    cases a <;> simp
  rw [hfe]
  apply parseLoop_eq_dedupCI
  intro p hp
  have h1 := List.mem_filter.mp hp
  obtain ⟨q, hq, hqt⟩ := List.mem_map.mp h1.1
  refine ⟨by rw [← hqt]; exact trim_trim q, ?_⟩
  intro h0
  rw [h0] at h1
  simp at h1

/-! ## ASCII character classes (for the normalization claim) -/

def isAsciiUpper (c : Nat) : Bool := decide (65 ≤ c ∧ c ≤ 90)

def isAsciiLower (c : Nat) : Bool := decide (97 ≤ c ∧ c ≤ 122)

def isAsciiAlpha (c : Nat) : Bool := isAsciiUpper c || isAsciiLower c

theorem toUpperC_toUpperC (c : Nat) : toUpperC (toUpperC c) = toUpperC c := by
  unfold toUpperC; split_ifs <;> omega

theorem upper_of_fix_alpha {c : Nat} (hf : toUpperC c = c)
    (ha : isAsciiAlpha c = true) : isAsciiUpper c = true := by
  simp only [isAsciiAlpha, isAsciiUpper, isAsciiLower, Bool.or_eq_true,
    decide_eq_true_eq] at *
  unfold toUpperC at hf
  split_ifs at hf <;> omega

theorem lower_of_fix_alpha {c : Nat} (hf : toLowerC c = c)
    (ha : isAsciiAlpha c = true) : isAsciiLower c = true := by
  simp only [isAsciiAlpha, isAsciiUpper, isAsciiLower, Bool.or_eq_true,
    decide_eq_true_eq] at *
  unfold toLowerC at hf
  split_ifs at hf <;> omega

/-! ## Claims C1, C2, C6 -/

/-- C1: for every raw string and positive `maxTagLength`, `parseTags`
computes exactly the spec §4.1 pipeline — split on the comma, trim each
piece, drop empty pieces, sentence-case, silently drop over-long tags,
deduplicate case-insensitively keeping the position of the first occurrence
(`parseSpec`); in particular Scenario A:
`"Test,Vip,vip,Another"` at `maxTagLength = 20` parses to
`["Test", "Vip", "Another"]`. -/
theorem claim_C1_parse_pipeline :
    (∀ (raw : Str) (L : Int), 0 < L → parseTags raw L = parseSpec raw L) ∧
      parseTags (strCodes "Test,Vip,vip,Another") 20
        = [strCodes "Test", strCodes "Vip", strCodes "Another"] :=
  ⟨fun raw L _ => parseTags_eq_parseSpec raw L, by decide⟩

theorem claim_C1_parse_pipeline_witness :
    parseTags (strCodes " a ,B,, b") 10 = parseSpec (strCodes " a ,B,, b") 10 :=
  claim_C1_parse_pipeline.1 (strCodes " a ,B,, b") 10 (by decide)

/-- C2: `parse(serialize(parse(s, L)), L) = parse(s, L)` for every string
`s` and positive integer `L`, where serialization joins tags with single
commas (`joinComma`); and `parse(serialize(t), L) = t` for every tag list
`t` satisfying the normalization invariants. -/
theorem claim_C2_roundtrip :
    (∀ (s : Str) (L : Int), 0 < L →
        parseTags (joinComma (parseTags s L)) L = parseTags s L) ∧
      (∀ (tags : List Str) (L : Int), TagListInvariant tags L →
        parseTags (joinComma tags) L = tags) := by
  constructor
  · intro s L _
    exact parseTags_joinComma_fixed (fun t ht => parseTags_mem_invariant ht)
      (nodup_lower_parseTags s L)
  · intro tags L hinv
    apply parseTags_joinComma_fixed
    · intro t ht
      obtain ⟨h1, h2, h3⟩ := hinv.1 t ht
      exact ⟨h1, h2, by omega⟩
    · exact hinv.2

theorem claim_C2_roundtrip_witness :
    parseTags (joinComma (parseTags (strCodes "Test,Vip,vip,Another") 20)) 20
        = parseTags (strCodes "Test,Vip,vip,Another") 20 ∧
      parseTags (joinComma [strCodes "Vip", strCodes "Test"]) 20
        = [strCodes "Vip", strCodes "Test"] :=
  ⟨claim_C2_roundtrip.1 (strCodes "Test,Vip,vip,Another") 20 (by decide),
   claim_C2_roundtrip.2 [strCodes "Vip", strCodes "Test"] 20 (by decide)⟩

/-- C6: whenever normalization accepts an input, the first
character is fixed under upper-casing (upper case whenever it is
alphabetic), every later character is fixed under lower-casing (lower
case whenever alphabetic), and normalization is idempotent. -/
theorem claim_C6_normalize :
    ∀ (t r : Str), normalizeTagText t = some r →
      (∀ c, r.head? = some c →
        toUpperC c = c ∧ (isAsciiAlpha c = true → isAsciiUpper c = true)) ∧
      (∀ c ∈ r.drop 1, toLowerC c = c ∧
        (isAsciiAlpha c = true → isAsciiLower c = true)) ∧
      normalizeTagText r = some r := by
  intro t r h
  refine ⟨?_, ?_, normalizeTagText_idem h⟩
  · intro c hc
    obtain ⟨h0, rfl⟩ := normalizeTagText_eq_some h
    cases hu : trim t with
    | nil => exact absurd hu h0
    | cons d ds =>
      rw [hu] at hc
      have hc2 : c = toUpperC (toLowerC d) := by
        have he : (upperFirst (lowerStr (d :: ds))).head?
            = some (toUpperC (toLowerC d)) := rfl
        rw [he] at hc
        exact (Option.some.inj hc).symm
      subst hc2
      refine ⟨toUpperC_toUpperC _, upper_of_fix_alpha (toUpperC_toUpperC _)⟩
  · intro c hc
    obtain ⟨h0, rfl⟩ := normalizeTagText_eq_some h
    cases hu : trim t with
    | nil => exact absurd hu h0
    | cons d ds =>
      rw [hu] at hc
      have hdrop : (upperFirst (lowerStr (d :: ds))).drop 1 = List.map toLowerC ds := rfl
      rw [hdrop] at hc
      obtain ⟨e, _, he⟩ := List.mem_map.mp hc
      subst he
      refine ⟨toLowerC_toLowerC _, lower_of_fix_alpha (toLowerC_toLowerC _)⟩

theorem claim_C6_normalize_witness :
    normalizeTagText (strCodes "Test") = some (strCodes "Test") :=
  (claim_C6_normalize (strCodes "  tEST  ") (strCodes "Test") (by decide)).2.2

/-! ## Control state and mutations (index.ts 5–9, 35–45, 279–321) -/

/-- The mutable instance state of the control (index.ts 7–9): the tag list,
the pending error message and the expand flag. -/
structure CState where
  tags : List Str
  errorMessage : Option Str
  showAllTags : Bool
deriving DecidableEq

/-- Decimal rendering of a number interpolated into a template string. -/
def intDecimal (n : Int) : Str := strCodes (toString n)

/-- The over-length error text of index.ts 291. -/
def tooLongMsg (maxLength : Int) : Str :=
  strCodes "Tag is too long! Maximum " ++ intDecimal maxLength ++
    strCodes " characters."

/-- The duplicate-tag error text of index.ts 300. -/
def tagExistsMsg : Str := strCodes "Tag already exists."

/-- `addTagFromInput` (index.ts 279–307); the re-render and the
output-changed notification are outside the state model. -/
def addTagFromInput (st : CState) (rawInput : Str) (maxLength : Int) : CState :=
  let st1 : CState := { st with errorMessage := none }
  match normalizeTagText rawInput with
  | none => st1
  | some normalized =>
    if (normalized.length : Int) > maxLength then
      { st1 with errorMessage := some (tooLongMsg maxLength) }
    else if st1.tags.any (fun t => lowerStr t = lowerStr normalized) then
      { st1 with errorMessage := some tagExistsMsg }
    else
      { st1 with tags := st1.tags ++ [normalized] }

/-- `updateView` (index.ts 35–45): re-parse the bound value and
auto-collapse when the new tag count fits the show limit. -/
def updateView (st : CState) (raw : Str) (rawMaxLen rawMaxShow : RawNum) : CState :=
  let tags := parseTags raw (getMaxTagLength rawMaxLen)
  { tags := tags
    errorMessage := st.errorMessage
    showAllTags :=
      if st.showAllTags = true ∧ (tags.length : Int) ≤ getMaxTagsToShow rawMaxShow
      then false else st.showAllTags }

/-- The AddTag transition written from the words of spec §4.3: clear the
error, no-op on empty normalization, reject over-long input with the
length message, reject case-insensitive duplicates with the duplicate
message, otherwise append the normalized tag at the end. -/
def addTagSpec (st : CState) (rawInput : Str) (maxLength : Int) : CState :=
  let cleared : CState := { st with errorMessage := none }
  match normalizeTagText rawInput with
  | none => cleared
  | some normalized =>
    if (normalized.length : Int) > maxLength then
      { cleared with errorMessage := some (tooLongMsg maxLength) }
    else if cleared.tags.any (fun t => lowerStr t = lowerStr normalized) then
      { cleared with errorMessage := some tagExistsMsg }
    else
      { cleared with tags := cleared.tags ++ [normalized] }

/-! ## Claims C3, C5, C8, C9 -/

/-- C3: AddTag first clears the error message, no-ops on empty
normalization, rejects over-long input with the interpolated length
message, rejects case-insensitive duplicates with the duplicate message,
and otherwise appends the normalized tag at the end (stated as equality
with the spec transition `addTagSpec`), with Scenarios D and E and the
append case checked concretely. -/
theorem claim_C3_addTag :
    (∀ (st : CState) (raw : Str) (L : Int),
        addTagFromInput st raw L = addTagSpec st raw L) ∧
      addTagFromInput ⟨[strCodes "New tag"], none, false⟩ (strCodes "new tag") 20
        = ⟨[strCodes "New tag"], some tagExistsMsg, false⟩ ∧
      addTagFromInput ⟨[], some tagExistsMsg, false⟩
          (strCodes "abcdefghijklmnopqrstuvwxy") 20
        = ⟨[], some (tooLongMsg 20), false⟩ ∧
      tooLongMsg 20 = strCodes "Tag is too long! Maximum 20 characters." ∧
      addTagFromInput ⟨[strCodes "Vip"], some tagExistsMsg, true⟩ (strCodes "  ") 20
        = ⟨[strCodes "Vip"], none, true⟩ ∧
      addTagFromInput ⟨[strCodes "Vip"], some tagExistsMsg, false⟩
          (strCodes "alpha") 20
        = ⟨[strCodes "Vip", strCodes "Alpha"], none, false⟩ :=
  ⟨fun _ _ _ => rfl, by decide, by decide, by decide, by decide, by decide⟩

/-- C5: after `updateView`, an expanded state whose new tag count fits
the show limit is collapsed, so any refreshed state that is still
expanded has more tags than the show limit. -/
theorem claim_C5_collapse_autoreset :
    ∀ (st : CState) (raw : Str) (rL rS : RawNum),
      (st.showAllTags = true →
        ((parseTags raw (getMaxTagLength rL)).length : Int) ≤ getMaxTagsToShow rS →
        (updateView st raw rL rS).showAllTags = false) ∧
      ((updateView st raw rL rS).showAllTags = true →
        ((updateView st raw rL rS).tags.length : Int) > getMaxTagsToShow rS) := by
  intro st raw rL rS
  have hsa : (updateView st raw rL rS).showAllTags =
      if st.showAllTags = true ∧
          ((parseTags raw (getMaxTagLength rL)).length : Int) ≤ getMaxTagsToShow rS
      then false else st.showAllTags := rfl
  have htg : (updateView st raw rL rS).tags = parseTags raw (getMaxTagLength rL) := rfl
  constructor
  · intro hexp hle
    rw [hsa, if_pos (And.intro hexp hle)]
  · intro hexp
    rw [hsa] at hexp
    rw [htg]
    by_cases hc : st.showAllTags = true ∧
        ((parseTags raw (getMaxTagLength rL)).length : Int) ≤ getMaxTagsToShow rS
    · rw [if_pos hc] at hexp
      exact absurd hexp (by simp)
    · rw [if_neg hc] at hexp
      rcases not_and_or.mp hc with h1 | h1
      · exact absurd hexp h1
      · omega

theorem claim_C5_collapse_autoreset_witness :
    (updateView ⟨[], none, true⟩ (strCodes "A,B") RawNum.missing
        RawNum.missing).showAllTags = false :=
  (claim_C5_collapse_autoreset ⟨[], none, true⟩ (strCodes "A,B")
    RawNum.missing RawNum.missing).1 (by decide) (by decide)

/-- C8: the refresh transition never touches the error message: the
error after `updateView` equals the error before it. -/
theorem claim_C8_error_frame :
    ∀ (st : CState) (raw : Str) (rL rS : RawNum),
      (updateView st raw rL rS).errorMessage = st.errorMessage :=
  fun _ _ _ _ => rfl

/-- C9: a missing, `NaN` or non-positive raw `maxTagLength` yields the
default 20, likewise `maxTagsToShow` yields 10, and both effective limits
are positive for every configuration input. -/
theorem claim_C9_config_defaults :
    (∀ r : RawNum, 0 < getMaxTagLength r ∧ 0 < getMaxTagsToShow r) ∧
      getMaxTagLength RawNum.missing = 20 ∧ getMaxTagLength RawNum.nan = 20 ∧
      (∀ n : Int, getMaxTagLength (RawNum.val n) = if n ≤ 0 then 20 else n) ∧
      getMaxTagsToShow RawNum.missing = 10 ∧ getMaxTagsToShow RawNum.nan = 10 ∧
      (∀ n : Int, getMaxTagsToShow (RawNum.val n) = if n ≤ 0 then 10 else n) := by
  refine ⟨?_, rfl, rfl, fun n => rfl, rfl, rfl, fun n => rfl⟩
  intro r
  cases r with
  | missing => exact ⟨by norm_num [getMaxTagLength], by norm_num [getMaxTagsToShow]⟩
  | nan => exact ⟨by norm_num [getMaxTagLength], by norm_num [getMaxTagsToShow]⟩
  | val n =>
    constructor
    · simp only [getMaxTagLength]; split_ifs <;> omega
    · simp only [getMaxTagsToShow]; split_ifs <;> omega

/-! ## Color assignment (index.ts 99–158) -/

/-- Wrap an integer to JavaScript 32-bit signed semantics (`| 0`). -/
def toInt32 (x : Int) : Int := (x + 2 ^ 31) % 2 ^ 32 - 2 ^ 31

/-- One step of the rolling hash of index.ts 151–155:
`hash = ((hash << 5) - hash) + charCode; hash |= 0`.  The shift wraps to
32-bit signed on its own; the trailing `|= 0` wraps the sum. -/
def hashStep (h : Int) (c : Nat) : Int := toInt32 (toInt32 (h * 32) - h + c)

/-- The rolling hash over the code units of a tag, starting from 0. -/
def hashOf (t : Str) : Int := t.foldl hashStep 0

/-- The fixed six-color pool of index.ts 142–149, in source order. -/
def colorPool : List Str :=
  [strCodes "#F59F27", strCodes "#0F6CBD", strCodes "#107C10",
   strCodes "#D13438", strCodes "#8C0095", strCodes "#008272"]

/-- `colorPool[Math.abs(hash) % colorPool.length]` (index.ts 157). -/
def hashColor (tag : Str) : Str := colorPool.getD ((hashOf tag).natAbs % 6) []

/-- Color configuration snapshot: the raw default color, the raw
dynamic-colors flag and the decoded custom palette.  `JSON.parse` is
modelled by its decoded key/value list; `none` covers the missing, blank
and invalid-JSON cases that index.ts 108–120 maps to `null`. -/
structure ColorConfig where
  defaultTagColorRaw : Option Str
  useDynamicColorsRaw : Option Bool
  customPalette : Option (List (Str × Str))

/-- `getDefaultColor` (index.ts 99–102): the trimmed configured color
when truthy and non-blank, else `"#F59F27"`. -/
def getDefaultColor (cfg : ColorConfig) : Str :=
  match cfg.defaultTagColorRaw with
  | some c => if 0 < (trim c).length then trim c else strCodes "#F59F27"
  | none => strCodes "#F59F27"

/-- `useDynamicColors` (index.ts 104–106): strict equality with `true`. -/
def useDynamicColorsEff (cfg : ColorConfig) : Bool :=
  match cfg.useDynamicColorsRaw with
  | some b => b
  | none => false

/-- `getTagColor` (index.ts 129–158).  `palette[tag]` is a case-sensitive
exact-key lookup whose value is used only when truthy, i.e. a non-empty
string. -/
def getTagColor (tag : Str) (cfg : ColorConfig) : Str :=
  if useDynamicColorsEff cfg = false then getDefaultColor cfg
  else
    match cfg.customPalette with
    | some palette =>
      match palette.lookup tag with
      | some c => if c ≠ [] then c else hashColor tag
      | none => hashColor tag
    | none => hashColor tag

/-- The color assignment exactly as claim C4 words it: the default color
when dynamic colors are off; the color of the palette entry on any
case-sensitive exact-key hit; otherwise the rolling-hash pool color. -/
def colorForSpec (tag : Str) (cfg : ColorConfig) : Str :=
  if useDynamicColorsEff cfg = false then getDefaultColor cfg
  else
    match cfg.customPalette with
    | some palette =>
      match palette.lookup tag with
      | some c => c
      | none => hashColor tag
    | none => hashColor tag

/-- The color assignment as claim C4 must be amended: a palette entry is
honoured only when its color string is non-empty (JavaScript truthiness);
an entry mapping to the empty string falls through to the hash color. -/
def colorForSpecTruthy (tag : Str) (cfg : ColorConfig) : Str :=
  if useDynamicColorsEff cfg = false then getDefaultColor cfg
  else
    match cfg.customPalette with
    | some palette =>
      match palette.lookup tag with
      | some c => if c ≠ [] then c else hashColor tag
      | none => hashColor tag
    | none => hashColor tag

/-- C4 as stated is false: a palette whose entry for the tag is the empty
string is a case-sensitive exact-key hit, yet `getTagColor` ignores it
(empty strings are falsy) and returns the hash-pool color instead of the
color of the entry. -/
theorem claim_C4_color_counterexample :
    getTagColor (strCodes "Vip")
        ⟨none, some true, some [(strCodes "Vip", [])]⟩
      ≠ colorForSpec (strCodes "Vip")
        ⟨none, some true, some [(strCodes "Vip", [])]⟩ := by decide

/-- C4 (amended): `getTagColor` equals the reference definition in which
a palette hit is honoured only when its color is non-empty; when dynamic
colors are off it returns the effective default color for every tag. -/
theorem claim_C4_color_amended :
    (∀ (tag : Str) (cfg : ColorConfig),
        getTagColor tag cfg = colorForSpecTruthy tag cfg) ∧
      (∀ (tag : Str) (cfg : ColorConfig), useDynamicColorsEff cfg = false →
        getTagColor tag cfg = getDefaultColor cfg) ∧
      (∀ (tag : Str), hashColor tag = colorPool.getD ((hashOf tag).natAbs % 6) []) :=
  ⟨fun _ _ => rfl,
   fun tag cfg h => by unfold getTagColor; rw [if_pos h],
   fun _ => rfl⟩

theorem claim_C4_color_amended_witness :
    getTagColor (strCodes "Other") ⟨some (strCodes "#123456"), some false, none⟩
      = getDefaultColor ⟨some (strCodes "#123456"), some false, none⟩ :=
  claim_C4_color_amended.2.1 (strCodes "Other")
    ⟨some (strCodes "#123456"), some false, none⟩ (by decide)

/-! ## Rendering geometry (index.ts 162–246) -/

/-- The chip-list geometry `render` produces: the visible chips in order,
the hidden count, and whether the expand ("+N") and collapse ("less")
affordances are emitted. -/
structure RenderDesc where
  visibleTags : List Str
  hiddenCount : Nat
  moreShown : Bool
  lessShown : Bool
deriving DecidableEq

/-- `render` (index.ts 173–246), restricted to its chip-list geometry:
`maxToShow` (line 173), `visibleTags` (174), `hiddenCount` (175), the
"+N" chip guard (206) and the "less" chip guard (227). -/
def render (tags : List Str) (showAllTags : Bool) (maxShow : Int) : RenderDesc :=
  { visibleTags := tags.take (if showAllTags = true then (tags.length : Int)
      else maxShow).toNat
    hiddenCount := tags.length -
      (tags.take (if showAllTags = true then (tags.length : Int) else maxShow).toNat).length
    moreShown := 0 < tags.length -
      (tags.take (if showAllTags = true then (tags.length : Int) else maxShow).toNat).length
    lessShown := showAllTags = true ∧ (tags.length : Int) > maxShow }

/-- C7: the visible chips are the first `maxTagsToShow` tags in order
(all tags when expanded); "+N" appears exactly when the hidden count is
positive, with N the number of hidden tags, and never while expanded;
"less" appears exactly when expanded with more tags than the limit;
checked concretely on Scenario C. -/
theorem claim_C7_render :
    (∀ (tags : List Str) (expanded : Bool) (maxShow : Int), 0 < maxShow →
      (render tags true maxShow).visibleTags = tags ∧
        (render tags false maxShow).visibleTags = tags.take maxShow.toNat ∧
        (render tags expanded maxShow).hiddenCount
          = tags.length - (render tags expanded maxShow).visibleTags.length ∧
        ((render tags expanded maxShow).moreShown = true ↔
          0 < (render tags expanded maxShow).hiddenCount) ∧
        (render tags true maxShow).hiddenCount = 0 ∧
        ((render tags expanded maxShow).lessShown = true ↔
          expanded = true ∧ (tags.length : Int) > maxShow)) ∧
      render [strCodes "A", strCodes "B", strCodes "C", strCodes "D"] false 2
        = ⟨[strCodes "A", strCodes "B"], 2, true, false⟩ ∧
      render [strCodes "A", strCodes "B", strCodes "C", strCodes "D"] true 2
        = ⟨[strCodes "A", strCodes "B", strCodes "C", strCodes "D"], 0, false, true⟩ := by
  refine ⟨?_, by decide, by decide⟩
  intro tags expanded maxShow _
  have htake : tags.take ((tags.length : Int)).toNat = tags := by
    rw [Int.toNat_natCast, List.take_length]
  refine ⟨?_, rfl, rfl, ?_, ?_, ?_⟩
  · show tags.take ((if true = true then (tags.length : Int) else maxShow)).toNat = tags
    rw [if_pos rfl]
    exact htake
  · simp only [render, decide_eq_true_eq]
  · show tags.length - (tags.take
        ((if true = true then (tags.length : Int) else maxShow)).toNat).length = 0
    rw [if_pos rfl, htake]
    omega
  · simp only [render, decide_eq_true_eq]

theorem claim_C7_render_witness :
    (render [strCodes "A"] false 3).visibleTags = [strCodes "A"].take ((3 : Int)).toNat :=
  (claim_C7_render.1 [strCodes "A"] false 3 (by decide)).2.1

/-! ## Claim C10: live entry admits commas -/

/-- C10: normalization keeps every character after position 0 except for
lower-casing, so AddTag accepts an input containing a comma; the stored
tag `"A,b"` then breaks the parse/serialize round trip. -/
theorem claim_C10_comma_leak :
    (∀ (s r : Str), normalizeTagText s = some r →
        r.drop 1 = ((trim s).drop 1).map toLowerC) ∧
      (addTagFromInput ⟨[], none, false⟩ (strCodes "a,b") 20).tags
        = [strCodes "A,b"] ∧
      44 ∈ strCodes "A,b" ∧
      parseTags (joinComma
          (addTagFromInput ⟨[], none, false⟩ (strCodes "a,b") 20).tags) 20
        ≠ (addTagFromInput ⟨[], none, false⟩ (strCodes "a,b") 20).tags := by
  refine ⟨?_, by decide, by decide, by decide⟩
  intro s r h
  obtain ⟨h0, rfl⟩ := normalizeTagText_eq_some h
  cases hu : trim s with
  | nil => exact absurd hu h0
  | cons d ds => rfl

theorem claim_C10_comma_leak_witness :
    (strCodes "A,b").drop 1 = ((trim (strCodes "a,b")).drop 1).map toLowerC :=
  claim_C10_comma_leak.1 (strCodes "a,b") (strCodes "A,b") (by decide)

end VossTag
